import Mathlib

/-!
Verification of the quadtree tile generator (`quadtree.py`) of the
Minecraft-Overviewer repository.  The Python source is shallowly embedded:
pure fragments become Lean functions, filesystem state (mtimes, stat
results, directory trees) is passed explicitly, and Python-2 integer
semantics (floor division `//`, sign of `%`, comparisons against `None`)
are reproduced by dedicated helpers.
-/

namespace Overviewer

/-! ### Depth computation (`QuadtreeGen.__init__`, lines 109-136)

The constructor, when no depth override is given, runs
`for p in xrange(15)` and breaks at the first `p` with
`2**p >= maxcol and -(2**p) <= mincol and 2*2**p >= maxrow and -(2*2**p) <= minrow`;
if no `p < 15` qualifies it raises `ValueError`.  We model the raise as
`none`. -/

/-- The loop-body condition of `QuadtreeGen.__init__` at candidate depth `p`:
`xradius >= maxcol and -xradius <= mincol and yradius >= maxrow and -yradius <= minrow`
with `xradius = 2**p`, `yradius = 2*2**p`. -/
def depthCond (mincol maxcol minrow maxrow : Int) (p : Nat) : Prop :=
  (2 : Int) ^ p ≥ maxcol ∧ -((2 : Int) ^ p) ≤ mincol ∧
  2 * (2 : Int) ^ p ≥ maxrow ∧ -(2 * (2 : Int) ^ p) ≤ minrow

instance (mincol maxcol minrow maxrow : Int) (p : Nat) :
    Decidable (depthCond mincol maxcol minrow maxrow p) := by
  unfold depthCond; infer_instance

/-- The `for p in xrange(15) ... else raise` loop, as fuelled linear search
starting at `p`. -/
def findDepth (mincol maxcol minrow maxrow : Int) : Nat → Nat → Option Nat
  | _, 0 => none
  | p, fuel + 1 =>
    if depthCond mincol maxcol minrow maxrow p then some p
    else findDepth mincol maxcol minrow maxrow (p + 1) fuel

/-- Depth selection of `QuadtreeGen.__init__` with no depth override:
the first `p ∈ {0,…,14}` satisfying `depthCond`, else `none`
(the code raises `ValueError`). -/
def computeDepth (mincol maxcol minrow maxrow : Int) : Option Nat :=
  findDepth mincol maxcol minrow maxrow 0 15

/-- The condition used by the spec's depth law:
`2^p ≥ max(|mincol|,|maxcol|)` and `2·2^p ≥ max(|minrow|,|maxrow|)`. -/
def specDepthCond (mincol maxcol minrow maxrow : Int) (p : Nat) : Prop :=
  (2 : Int) ^ p ≥ max |mincol| |maxcol| ∧ 2 * (2 : Int) ^ p ≥ max |minrow| |maxrow|

instance (mincol maxcol minrow maxrow : Int) (p : Nat) :
    Decidable (specDepthCond mincol maxcol minrow maxrow p) := by
  unfold specDepthCond; infer_instance

/-! ### Path-to-window translation (`QuadtreeGen._get_range_by_path`, lines 430-445)

`x, y = mincol, minrow; xsize = maxcol; ysize = maxrow;`
`for p in path: if p in (1,3): x += xsize; if p in (2,3): y += ysize;`
`xsize //= 2; ysize //= 2`.  With no depth override the effective bounds
are `mincol = -2^p, maxcol = 2^p, minrow = -2*2^p, maxrow = 2*2^p`. -/

/-- The loop body of `_get_range_by_path`, with Python floor division for
`//= 2`. -/
def rangeAux : List (Fin 4) → Int → Int → Int → Int → Int × Int
  | [], x, y, _, _ => (x, y)
  | d :: rest, x, y, xs, ys =>
    rangeAux rest (if d.val = 1 ∨ d.val = 3 then x + xs else x)
      (if d.val = 2 ∨ d.val = 3 then y + ys else y)
      (Int.fdiv xs 2) (Int.fdiv ys 2)

/-- `_get_range_by_path` at quadtree depth `p`, with the effective bounds
computed in `__init__` (`mincol = -2^p`, `minrow = -2*2^p`,
`maxcol = 2^p`, `maxrow = 2*2^p`). -/
def getRangeByPath (p : Nat) (path : List (Fin 4)) : Int × Int :=
  rangeAux path (-((2 : Int) ^ p)) (-(2 * (2 : Int) ^ p)) ((2 : Int) ^ p) (2 * (2 : Int) ^ p)

/-- The x-bit of a quadrant digit: 1 for digits 1 and 3 (the `+x` half). -/
def cbit (d : Fin 4) : Nat := if d.val = 1 ∨ d.val = 3 then 1 else 0

/-- The y-bit of a quadrant digit: 1 for digits 2 and 3 (the `+y` half). -/
def rbit (d : Fin 4) : Nat := if d.val = 2 ∨ d.val = 3 then 1 else 0

/-- Column index of a path: its x-bits read as a binary numeral, most
significant digit first. -/
def colBits : List (Fin 4) → Nat
  | [] => 0
  | d :: rest => cbit d * 2 ^ rest.length + colBits rest

/-- Row index of a path: its y-bits read as a binary numeral, most
significant digit first. -/
def rowBits : List (Fin 4) → Nat
  | [] => 0
  | d :: rest => rbit d * 2 ^ rest.length + rowBits rest

/-- The quadrant digit with x-bit `a % 2` and y-bit `b % 2`. -/
def qdigit (a b : Nat) : Fin 4 := ⟨a % 2 + 2 * (b % 2), by omega⟩

/-- The path of length `n` whose column index is `i` and row index is `j`
(for `i, j < 2^n`): inverse of `colBits`/`rowBits`. -/
def pathOf : Nat → Nat → Nat → List (Fin 4)
  | 0, _, _ => []
  | n + 1, i, j => qdigit (i / 2 ^ n) (j / 2 ^ n) :: pathOf n (i % 2 ^ n) (j % 2 ^ n)

/-- Grid cell `(c, r)` lies in the leaf window starting at `w`
(half-open: `colstart ≤ c < colstart + 2`, `rowstart ≤ r < rowstart + 4`). -/
def inWindow (w : Int × Int) (c r : Int) : Prop :=
  w.1 ≤ c ∧ c < w.1 + 2 ∧ w.2 ≤ r ∧ r < w.2 + 4

instance (w : Int × Int) (c r : Int) : Decidable (inWindow w c r) := by
  unfold inWindow; infer_instance

/-- The leaf window starting at `w` lies inside the effective bounds
`[-2^p, 2^p] × [-2*2^p, 2*2^p]` at depth `p`. -/
def windowInBounds (p : Nat) (w : Int × Int) : Prop :=
  -((2 : Int) ^ p) ≤ w.1 ∧ w.1 + 2 ≤ (2 : Int) ^ p ∧
  -(2 * (2 : Int) ^ p) ≤ w.2 ∧ w.2 + 4 ≤ 2 * (2 : Int) ^ p

instance (p : Nat) (w : Int × Int) : Decidable (windowInBounds p w) := by
  unfold windowInBounds; infer_instance

/-! ### Chunk enumeration (`QuadtreeGen._get_chunks_in_range`, lines 447-468) -/

/-- One entry of the list built by `_get_chunks_in_range`:
`(col, row, chunkx, chunky, regionpath)`.  Region paths are abstracted to
`Nat` identifiers. -/
structure ChunkRef where
  col : Int
  row : Int
  chunkx : Int
  chunky : Int
  regionfile : Nat
deriving DecidableEq, Repr

/-- `n` consecutive integers starting at `lo`, in ascending order. -/
def intRangeAux (lo : Int) : Nat → List Int
  | 0 => []
  | n + 1 => lo :: intRangeAux (lo + 1) n

/-- `xrange(lo, hi + 1)`: the integers from `lo` to `hi` inclusive. -/
def intRange (lo hi : Int) : List Int :=
  intRangeAux lo (hi + 1 - lo).toNat

/-- The loop body of `_get_chunks_in_range` at cell `(col, row)`:
skip when `row % 2 != col % 2`; otherwise translate through
`unconvert_coords` and keep the tuple only if `regionfiles.get` (whose
third component is modelled by `regionAt`, `none` standing for the
`(None, None, None)` default) finds a region.  `chunkx // 32` is Python
floor division. -/
def chunkAt (unconvert : Int → Int → Int × Int)
    (regionAt : Int × Int → Option Nat) (col row : Int) : Option ChunkRef :=
  if row % 2 ≠ col % 2 then none
  else
    match unconvert col row with
    | (chunkx, chunky) =>
      match regionAt (Int.fdiv chunkx 32, Int.fdiv chunky 32) with
      | some c => some ⟨col, row, chunkx, chunky, c⟩
      | none => none

/-- `_get_chunks_in_range`: `for row in xrange(rowstart-16, rowend+1)`,
`for col in xrange(colstart, colend+1)`, appending the surviving
tuples in iteration order. -/
def getChunksInRange (unconvert : Int → Int → Int × Int)
    (regionAt : Int × Int → Option Nat)
    (colstart colend rowstart rowend : Int) : List ChunkRef :=
  (intRange (rowstart - 16) rowend).flatMap fun row =>
    (intRange colstart colend).filterMap fun col =>
      chunkAt unconvert regionAt col row

/-- Strict "row first, then column" order on chunk entries: the order in
which `_get_chunks_in_range` emits them and `render_worldtile` draws
them. -/
def chunkBefore (a b : ChunkRef) : Prop :=
  a.row < b.row ∨ (a.row = b.row ∧ a.col < b.col)

/-! ### Leaf tile rendering (`render_worldtile`, lines 551-681) and
inner tile rendering (`render_innertile`, lines 479-540)

Filesystem interaction is abstracted: a stat either succeeds with an
mtime, fails with `ENOENT`, or fails with another `OSError`. -/

/-- Result of `os.stat`/`os.path.getmtime` on a file. -/
inductive StatRes where
  | ok (mtime : Int)
  | enoent
  | err
deriving DecidableEq, Repr

/-- The mtime recovered from a tile stat after the
`except OSError: if e.errno != errno.ENOENT: raise; tile_mtime = None`
handler (only meaningful when the stat did not raise a non-ENOENT
error). -/
def statMtime : StatRes → Option Int
  | .ok m => some m
  | _ => none

/-- Python-2 comparison `x <= m` where `m` may be `None`
(`None` is smaller than every number in Python 2). -/
def pyLe (x : Int) : Option Int → Bool
  | none => false
  | some m => x ≤ m

/-- Python-2 comparison `x > m` where `m` may be `None`. -/
def pyGt (x : Int) : Option Int → Bool
  | none => true
  | some m => m < x

/-- `isOkStat s` iff the stat succeeded. -/
def isOkStat : StatRes → Bool
  | .ok _ => true
  | _ => false

/-- The world-side environment of `render_worldtile`:
per-region chunk existence, region-file stat outcome, and per-chunk
timestamp. -/
structure WorldEnv where
  chunkExists : Nat → Int → Int → Bool
  regionStat : Nat → StatRes
  chunkTimestamp : Nat → Int → Int → Int

/-- Outcome of the freshness loop of `render_worldtile` (lines 634-660):
either the loop finished with verdict `needs`, or an `OSError` escaped to
the `except OSError: pass` handler (`aborted`).  `stats` records the
successful `os.path.getmtime` calls on region files in order, `queries`
records the chunks whose `get_chunk_timestamp` was consulted in order. -/
inductive ScanRes where
  | done (needs : Bool) (stats : List Nat) (queries : List ChunkRef)
  | aborted (stats : List Nat) (queries : List ChunkRef)
deriving DecidableEq, Repr

/-- Prepend region-stat events to a scan outcome. -/
def consStat (s : List Nat) : ScanRes → ScanRes
  | .done b st q => .done b (s ++ st) q
  | .aborted st q => .aborted (s ++ st) q

/-- Prepend timestamp-query events to a scan outcome. -/
def consQuery (c : List ChunkRef) : ScanRes → ScanRes
  | .done b st q => .done b st (c ++ q)
  | .aborted st q => .aborted st (c ++ q)

/-- The `for col, row, chunkx, chunky, regionfile in chunks` freshness
loop of `render_worldtile`, with the `regionMtimes` memo dict as an
association list.  A region's mtime is fetched at most once; when the
memoized mtime satisfies `regionMtime <= tile_mtime` the chunk is
skipped; otherwise the chunk's timestamp is queried, and the loop breaks
with `needs_rerender = True` as soon as one exceeds `tile_mtime`. -/
def scanChunks (env : WorldEnv) (tmt : Option Int) :
    List ChunkRef → List (Nat × Int) → ScanRes
  | [], _ => .done false [] []
  | c :: rest, memo =>
    match memo.lookup c.regionfile with
    | some rm =>
      if pyLe rm tmt then scanChunks env tmt rest memo
      else if pyGt (env.chunkTimestamp c.regionfile c.chunkx c.chunky) tmt then
        .done true [] [c]
      else consQuery [c] (scanChunks env tmt rest memo)
    | none =>
      match env.regionStat c.regionfile with
      | .ok rm =>
        consStat [c.regionfile]
          (if pyLe rm tmt then
            scanChunks env tmt rest ((c.regionfile, rm) :: memo)
          else if pyGt (env.chunkTimestamp c.regionfile c.chunkx c.chunky) tmt then
            .done true [] [c]
          else consQuery [c] (scanChunks env tmt rest ((c.regionfile, rm) :: memo)))
      | _ => .aborted [] []

/-- Observable outcome of a tile-render call. -/
inductive RWResult where
  | error
  | deleted
  | noop
  | skipped
  | written
deriving DecidableEq, Repr

/-- The `chunks = filter(chunk_exists, chunks)` step of
`render_worldtile` (lines 602-606). -/
def existingChunks (env : WorldEnv) (chunks : List ChunkRef) : List ChunkRef :=
  chunks.filter fun c => env.chunkExists c.regionfile c.chunkx c.chunky

/-- `render_worldtile` (lines 551-681) as a decision function:
filter non-existent chunks; stat the tile (a non-ENOENT error
propagates, `error`); if no chunks remain, delete an existing tile
(`deleted`) or do nothing (`noop`); otherwise run the freshness scan;
an `OSError` inside it falls through to rendering (`written`);
a verdict of "fresh" returns without writing (`skipped`). -/
def render_worldtile (env : WorldEnv) (chunks : List ChunkRef)
    (tileStat : StatRes) : RWResult :=
  let chunks' := existingChunks env chunks
  match tileStat with
  | .err => .error
  | ts =>
    let tmt := statMtime ts
    if chunks' = [] then (if tmt.isSome then .deleted else .noop)
    else
      match scanChunks env tmt chunks' [] with
      | .done true _ _ => .written
      | .done false _ _ => .skipped
      | .aborted _ _ => .written

/-- The chunk-drawing loop of `render_worldtile` (lines 669-675): the
surviving chunks are drawn in list order, chunk `(col, row)` at pixel
offset `(-192 + (col-colstart)*192, -96 + (row-rowstart)*96)`. -/
def drawEvents (env : WorldEnv) (chunks : List ChunkRef)
    (colstart rowstart : Int) : List (ChunkRef × Int × Int) :=
  (existingChunks env chunks).map fun c =>
    (c, -192 + (c.col - colstart) * 192, -96 + (c.row - rowstart) * 96)

/-- Child `i` of an inner tile survives the stat loop
(`quadPath_filtered`) iff its stat succeeded; any `OSError` is swallowed
by `except OSError: pass`. -/
def childOk (childStat : Fin 4 → StatRes) (i : Fin 4) : Bool :=
  isOkStat (childStat i)

/-- Child `i` sets `needs_rerender`: its stat succeeded and
`quad_mtime > tile_mtime` (Python-2 comparison, true against `None`). -/
def childNewer (childStat : Fin 4 → StatRes) (tmt : Option Int) (i : Fin 4) : Bool :=
  match childStat i with
  | .ok m => pyGt m tmt
  | _ => false

/-- `render_innertile` (lines 479-540) as a decision function over the
target stat and the four child stats.  A non-ENOENT error on the target
stat propagates; a child stat failing with any `OSError` is skipped
(`except OSError: pass`); if no child survived, an existing target is
deleted; otherwise the target is rewritten iff it was absent or some
surviving child is newer. -/
def render_innertile (tileStat : StatRes) (childStat : Fin 4 → StatRes) : RWResult :=
  match tileStat with
  | .err => .error
  | ts =>
    let tmt := statMtime ts
    let filtered := (List.finRange 4).filter (childOk childStat)
    let needs := tmt.isNone || filtered.any (childNewer childStat tmt)
    if filtered = [] then (if tmt.isSome then .deleted else .noop)
    else if needs then .written else .skipped

/-- Replace a non-ENOENT stat error by ENOENT. -/
def demoteErr : StatRes → StatRes
  | .err => .enoent
  | s => s

/-- A concrete environment for the freshness counterexample: every chunk
exists, every region file has mtime 0, every chunk timestamp is 100. -/
def envStale : WorldEnv where
  chunkExists := fun _ _ _ => true
  regionStat := fun _ => .ok 0
  chunkTimestamp := fun _ _ _ => 100

/-- A concrete environment in which every region-file stat raises a
non-ENOENT `OSError`. -/
def envRegionErr : WorldEnv where
  chunkExists := fun _ _ _ => true
  regionStat := fun _ => .err
  chunkTimestamp := fun _ _ _ => 0

/-- A concrete chunk tuple at the origin, region 0. -/
def chunk0 : ChunkRef := ⟨0, 0, 0, 0, 0⟩

/-! ### Dispatch loop of `QuadtreeGen.go` (lines 375-420)

Only the result deque matters for the bounded-memory claim; deque entries
are abstract task identifiers.  `batch_size = 50`; with Python-2 integer
division `10000/batch_size = 200` and `500/batch_size = 10`. -/

/-- `batch_size` in `QuadtreeGen.go`. -/
def batch_size : Nat := 50

/-- The append threshold `10000/batch_size` of the dispatch loops. -/
def queueHigh : Nat := 10000 / batch_size

/-- The drain target `500/batch_size` of the dispatch loops. -/
def queueLow : Nat := 500 / batch_size

/-- `while len(results) > lowq: results.popleft()`: drop elements from the
front until at most `lowq` remain. -/
def drainTo (lowq : Nat) (q : List Nat) : List Nat :=
  q.drop (q.length - lowq)

/-- The dispatch loop of one phase of `go`: for each yielded result,
append it, and if the deque length exceeds `maxq`, drain from the front
down to `lowq`.  Returns the list of (after-append, after-drain) deque
states, in order. -/
def phasePairs (maxq lowq : Nat) : List Nat → List Nat → List (List Nat × List Nat)
  | _, [] => []
  | q, t :: ts =>
    let q1 := q ++ [t]
    let q2 := if maxq < q1.length then drainTo lowq q1 else q1
    (q1, q2) :: phasePairs maxq lowq q2 ts

/-- The deque contents after the dispatch loop of one phase. -/
def phaseEnd (maxq lowq : Nat) : List Nat → List Nat → List Nat
  | q, [] => q
  | q, t :: ts =>
    let q1 := q ++ [t]
    let q2 := if maxq < q1.length then drainTo lowq q1 else q1
    phaseEnd maxq lowq q2 ts

/-! ### On-disk tree rebalancing (`_increase_depth` lines 238-262,
`_decrease_depth` lines 264-293)

A quadrant subtree holds, for each digit `e`, an optional file `e.<ext>`
(contents abstracted to `Nat`) and an optional directory `e/`.  The top
of the tile directory is modelled the same way (entries not named by a
digit, such as `base.<ext>` and `blank.<ext>`, are untouched by both
operations and are omitted). -/

/-- A quadrant subtree: files `0.<ext>`..`3.<ext>` and directories
`0/`..`3/`. -/
inductive QTree where
  | node (f0 f1 f2 f3 : Option Nat) (d0 d1 d2 d3 : Option QTree)

/-- The file entry `e.<ext>` of a quadrant subtree. -/
def QTree.fileAt : QTree → Fin 4 → Option Nat
  | .node a _ _ _ _ _ _ _, 0 => a
  | .node _ a _ _ _ _ _ _, 1 => a
  | .node _ _ a _ _ _ _ _, 2 => a
  | .node _ _ _ a _ _ _ _, 3 => a

/-- The directory entry `e/` of a quadrant subtree. -/
def QTree.dirAt : QTree → Fin 4 → Option QTree
  | .node _ _ _ _ a _ _ _, 0 => a
  | .node _ _ _ _ _ a _ _, 1 => a
  | .node _ _ _ _ _ _ a _, 2 => a
  | .node _ _ _ _ _ _ _ a, 3 => a

/-- Top level of the tile directory: files `d.<ext>` and directories `d/`
for `d ∈ {0,1,2,3}`. -/
structure TileTop where
  f0 : Option Nat
  f1 : Option Nat
  f2 : Option Nat
  f3 : Option Nat
  d0 : Option QTree
  d1 : Option QTree
  d2 : Option QTree
  d3 : Option QTree

/-- The top-level file `d.<ext>`. -/
def TileTop.fileAt (t : TileTop) : Fin 4 → Option Nat
  | 0 => t.f0
  | 1 => t.f1
  | 2 => t.f2
  | 3 => t.f3

/-- The top-level directory `d/`. -/
def TileTop.dirAt (t : TileTop) : Fin 4 → Option QTree
  | 0 => t.d0
  | 1 => t.d1
  | 2 => t.d2
  | 3 => t.d3

/-- `newnum = (3,2,1,0)[dirnum]`: the digit remap of the rebalancing
operations. -/
def flipDigit (d : Fin 4) : Fin 4 := ⟨3 - d.val, by omega⟩

/-- `_increase_depth`: for each top-level quadrant `d`, create a fresh
directory holding the former `d.<ext>` as `(3-d).<ext>` and the former
`d/` as `(3-d)/`, and install it as the new `d/`; the top-level file
slot becomes empty. -/
def increase_depth (t : TileTop) : TileTop where
  f0 := none
  f1 := none
  f2 := none
  f3 := none
  d0 := some (.node none none none t.f0 none none none t.d0)
  d1 := some (.node none none t.f1 none none none t.d1 none)
  d2 := some (.node none t.f2 none none none t.d2 none none)
  d3 := some (.node t.f3 none none none t.d3 none none none)

/-- One quadrant step of `_decrease_depth`: if `d/(3-d)/` exists, it
replaces `d/` wholesale (`rename` out, `rmtree` the rest, `rename`
back); otherwise the quadrant is left untouched. -/
def decreaseQuadrant (dq : Option QTree) (childIdx : Fin 4) : Option QTree :=
  match dq with
  | none => none
  | some q =>
    match q.dirAt childIdx with
    | some sub => some sub
    | none => some q

/-- `_decrease_depth`: apply `decreaseQuadrant` with child `3-d` to each
top-level quadrant `d`; top-level files are not touched. -/
def decrease_depth (t : TileTop) : TileTop :=
  { t with
    d0 := decreaseQuadrant t.d0 3
    d1 := decreaseQuadrant t.d1 2
    d2 := decreaseQuadrant t.d2 1
    d3 := decreaseQuadrant t.d3 0 }

/-- The directory two levels down: `d/e/`. -/
def deepDir (t : TileTop) (d e : Fin 4) : Option QTree :=
  match t.dirAt d with
  | none => none
  | some q => q.dirAt e

/-! ## Theorems -/

/-! ### Depth selection (C1) -/

theorem findDepth_eq_some (mincol maxcol minrow maxrow : Int) :
    ∀ fuel p r, findDepth mincol maxcol minrow maxrow p fuel = some r ↔
      (p ≤ r ∧ r < p + fuel ∧ depthCond mincol maxcol minrow maxrow r ∧
        ∀ q, p ≤ q → q < r → ¬ depthCond mincol maxcol minrow maxrow q) := by
  intro fuel
  induction fuel with
  | zero => intro p r; simp [findDepth]; omega
  | succ n ih =>
    intro p r
    by_cases h : depthCond mincol maxcol minrow maxrow p
    · simp only [findDepth, if_pos h]
      constructor
      · rintro h'
        have : p = r := Option.some.inj h'
        subst this
        exact ⟨le_refl _, by omega, h, fun q hq hq' => by omega⟩
      · rintro ⟨h1, h2, h3, h4⟩
        have : p = r := by
          by_contra hne
          exact h4 p (le_refl _) (by omega) h
        simp [this]
    · simp only [findDepth, if_neg h]
      rw [ih (p + 1)]
      constructor
      · rintro ⟨h1, h2, h3, h4⟩
        refine ⟨by omega, by omega, h3, fun q hq hq' => ?_⟩
        rcases Nat.eq_or_lt_of_le hq with rfl | hlt
        · exact h
        · exact h4 q (by omega) hq'
      · rintro ⟨h1, h2, h3, h4⟩
        have hpr : p ≠ r := by rintro rfl; exact h h3
        exact ⟨by omega, by omega, h3, fun q hq hq' => h4 q (by omega) hq'⟩

theorem findDepth_eq_none (mincol maxcol minrow maxrow : Int) :
    ∀ fuel p, findDepth mincol maxcol minrow maxrow p fuel = none ↔
      (∀ q, p ≤ q → q < p + fuel → ¬ depthCond mincol maxcol minrow maxrow q) := by
  intro fuel
  induction fuel with
  | zero => intro p; simp [findDepth]; omega
  | succ n ih =>
    intro p
    by_cases h : depthCond mincol maxcol minrow maxrow p
    · simp only [findDepth, if_pos h]
      constructor
      · intro h'; exact absurd h' (by simp)
      · intro h'; exact absurd h (h' p (le_refl _) (by omega))
    · simp only [findDepth, if_neg h]
      rw [ih (p + 1)]
      constructor
      · intro h' q hq hq'
        rcases Nat.eq_or_lt_of_le hq with rfl | hlt
        · exact h
        · exact h' q (by omega) (by omega)
      · intro h' q hq hq'
        exact h' q (by omega) (by omega)

/-- Under ordered bounds, the code's loop condition coincides with the
spec's depth condition. -/
theorem depthCond_iff_spec (mincol maxcol minrow maxrow : Int)
    (h1 : mincol ≤ maxcol) (h2 : minrow ≤ maxrow) (p : Nat) :
    depthCond mincol maxcol minrow maxrow p ↔
      specDepthCond mincol maxcol minrow maxrow p := by
  unfold depthCond specDepthCond
  constructor
  · rintro ⟨a, b, c, d⟩
    constructor
    · rcases abs_cases mincol with ⟨e, f⟩ | ⟨e, f⟩ <;>
        rcases abs_cases maxcol with ⟨g, i⟩ | ⟨g, i⟩ <;>
        simp [max_le_iff] <;> omega
    · rcases abs_cases minrow with ⟨e, f⟩ | ⟨e, f⟩ <;>
        rcases abs_cases maxrow with ⟨g, i⟩ | ⟨g, i⟩ <;>
        simp [max_le_iff] <;> omega
  · rintro ⟨a, b⟩
    rw [ge_iff_le, max_le_iff] at a b
    rcases abs_cases mincol with ⟨e, f⟩ | ⟨e, f⟩ <;>
      rcases abs_cases maxcol with ⟨g, i⟩ | ⟨g, i⟩ <;>
      rcases abs_cases minrow with ⟨j, k⟩ | ⟨j, k⟩ <;>
      rcases abs_cases maxrow with ⟨l, m⟩ | ⟨l, m⟩ <;>
      constructorm* _ ∧ _ <;> omega

/-- C1 (amended): for ordered integer world bounds of magnitude at most
`2^15·2`, `QuadtreeGen.__init__` returns the smallest `p` satisfying
`2^p ≥ max(|mincol|,|maxcol|)` and `2·2^p ≥ max(|minrow|,|maxrow|)`
whenever that `p` is at most 14, and raises `ValueError` (modelled
`none`) whenever no `p ≤ 14` satisfies the conditions — the loop
`for p in xrange(15)` caps the depth at 14, not 15. -/
theorem C1_depth_law (mincol maxcol minrow maxrow : Int)
    (hcol : mincol ≤ maxcol) (hrow : minrow ≤ maxrow)
    (hm1 : |mincol| ≤ 2 ^ 15 * 2) (hm2 : |maxcol| ≤ 2 ^ 15 * 2)
    (hm3 : |minrow| ≤ 2 ^ 15 * 2) (hm4 : |maxrow| ≤ 2 ^ 15 * 2) :
    (∀ r, computeDepth mincol maxcol minrow maxrow = some r ↔
      (r ≤ 14 ∧ specDepthCond mincol maxcol minrow maxrow r ∧
        ∀ q, q < r → ¬ specDepthCond mincol maxcol minrow maxrow q)) ∧
    (computeDepth mincol maxcol minrow maxrow = none ↔
      ∀ q, q ≤ 14 → ¬ specDepthCond mincol maxcol minrow maxrow q) := by
  constructor
  · intro r
    rw [computeDepth, findDepth_eq_some]
    constructor
    · rintro ⟨_, h2, h3, h4⟩
      refine ⟨by omega, (depthCond_iff_spec _ _ _ _ hcol hrow r).1 h3, fun q hq => ?_⟩
      rw [← depthCond_iff_spec _ _ _ _ hcol hrow q]
      exact h4 q (by omega) hq
    · rintro ⟨h1, h2, h3⟩
      refine ⟨by omega, by omega, (depthCond_iff_spec _ _ _ _ hcol hrow r).2 h2,
        fun q _ hq => ?_⟩
      rw [depthCond_iff_spec _ _ _ _ hcol hrow q]
      exact h3 q hq
  · rw [computeDepth, findDepth_eq_none]
    constructor
    · intro h q hq
      rw [← depthCond_iff_spec _ _ _ _ hcol hrow q]
      exact h q (by omega) (by omega)
    · intro h q _ hq
      rw [depthCond_iff_spec _ _ _ _ hcol hrow q]
      exact h q (by omega)

/-- C1 counterexample: the bounds `(-32768, 32768, -2, 2)` have magnitude
at most `2^15·2` and their smallest admissible depth by the spec's law is
exactly 15, which does not exceed the claimed cap of 15 — yet the code
raises `ValueError` (modelled `none`), because `for p in xrange(15)`
only tries `p = 0,…,14`. -/
theorem C1_counterexample :
    computeDepth (-32768) 32768 (-2) 2 = none ∧
    specDepthCond (-32768) 32768 (-2) 2 15 ∧
    (∀ q, q < 15 → ¬ specDepthCond (-32768) 32768 (-2) 2 q) ∧
    |(-32768 : Int)| ≤ 2 ^ 15 * 2 := by
  refine ⟨by decide, by decide, ?_, by decide⟩
  decide

/-- Witness for `C1_depth_law`: the spec's own scenario S1,
`bounds = (-3, 3, -5, 5) ⇒ p = 2`. -/
theorem C1_witness : computeDepth (-3) 3 (-5) 5 = some 2 :=
  ((C1_depth_law (-3) 3 (-5) 5 (by decide) (by decide) (by decide) (by decide)
    (by decide) (by decide)).1 2).mpr (by decide)

/-! ### Concrete window scenario (C7) -/

/-- C7 counterexample: at depth 2 with effective bounds
`(-4, 4, -8, 8)`, `_get_range_by_path((1,3))` does not return `(2, 4)`
as the spec's scenario S2 states. -/
theorem C7_counterexample : getRangeByPath 2 [1, 3] ≠ (2, 4) := by decide

/-- C7 (amended): at depth 2 with effective bounds `(-4, 4, -8, 8)`,
`_get_range_by_path((1,3))` returns `(colstart, rowstart) = (2, -4)`,
so the leaf window covers columns 2..4 and rows -4..0 (digit 1 keeps
`y` at the top half, digit 3 then adds the halved ysize 4 to `-8`). -/
theorem C7_window_example : getRangeByPath 2 [1, 3] = (2, -4) := by decide

/-! ### Path-window geometry (C3) -/

theorem cbit_le_one (d : Fin 4) : cbit d ≤ 1 := by
  unfold cbit; split <;> omega

theorem rbit_le_one (d : Fin 4) : rbit d ≤ 1 := by
  unfold rbit; split <;> omega

theorem colBits_lt : ∀ path : List (Fin 4), colBits path < 2 ^ path.length := by
  intro path
  induction path with
  | nil => simp [colBits]
  | cons d rest ih =>
    rcases Nat.le_one_iff_eq_zero_or_eq_one.1 (cbit_le_one d) with h | h <;>
      simp only [colBits, List.length_cons, pow_succ, h] <;> omega

theorem rowBits_lt : ∀ path : List (Fin 4), rowBits path < 2 ^ path.length := by
  intro path
  induction path with
  | nil => simp [rowBits]
  | cons d rest ih =>
    rcases Nat.le_one_iff_eq_zero_or_eq_one.1 (rbit_le_one d) with h | h <;>
      simp only [rowBits, List.length_cons, pow_succ, h] <;> omega

/-- Closed form of `_get_range_by_path`'s loop: starting at `(x, y)` with
sizes `(2^n, 2·2^n)` for a path of length `n`, the result offsets the
start by twice the column index and four times the row index. -/
theorem rangeAux_formula :
    ∀ (path : List (Fin 4)) (x y : Int),
      rangeAux path x y (2 ^ path.length) (2 * 2 ^ path.length) =
        (x + 2 * (colBits path : Int), y + 4 * (rowBits path : Int)) := by
  intro path
  induction path with
  | nil => intro x y; simp [rangeAux, colBits, rowBits]
  | cons d rest ih =>
    intro x y
    have h2 : ((2 : Int) ^ (rest.length + 1)).fdiv 2 = 2 ^ rest.length := by
      rw [Int.fdiv_eq_ediv _ (by norm_num), pow_succ]
      omega
    have h4 : (2 * (2 : Int) ^ (rest.length + 1)).fdiv 2 = 2 * 2 ^ rest.length := by
      rw [Int.fdiv_eq_ediv _ (by norm_num), pow_succ]
      omega
    simp only [rangeAux, List.length_cons, h2, h4, ih]
    simp only [colBits, rowBits, Prod.mk.injEq]
    constructor
    · by_cases hd : d.val = 1 ∨ d.val = 3 <;>
        simp only [cbit, if_pos, if_neg, hd, ite_true, ite_false] <;>
        push_cast <;> ring
    · by_cases hd : d.val = 2 ∨ d.val = 3 <;>
        simp only [rbit, if_pos, if_neg, hd, ite_true, ite_false] <;>
        push_cast <;> ring

/-- The same closed form for `getRangeByPath` at depth `p`. -/
theorem getRangeByPath_formula (p : Nat) (path : List (Fin 4))
    (hlen : path.length = p) :
    getRangeByPath p path =
      (-((2 : Int) ^ p) + 2 * (colBits path : Int),
        -(2 * (2 : Int) ^ p) + 4 * (rowBits path : Int)) := by
  rw [getRangeByPath, ← hlen, rangeAux_formula]

theorem cbit_qdigit (a b : Nat) : cbit (qdigit a b) = a % 2 := by
  unfold cbit qdigit
  dsimp only
  rcases Nat.mod_two_eq_zero_or_one a with h | h <;>
    rcases Nat.mod_two_eq_zero_or_one b with h' | h' <;>
    rw [h, h'] <;> decide

theorem rbit_qdigit (a b : Nat) : rbit (qdigit a b) = b % 2 := by
  unfold rbit qdigit
  dsimp only
  rcases Nat.mod_two_eq_zero_or_one a with h | h <;>
    rcases Nat.mod_two_eq_zero_or_one b with h' | h' <;>
    rw [h, h'] <;> decide

theorem qdigit_inj (d e : Fin 4) (hc : cbit d = cbit e) (hr : rbit d = rbit e) :
    d = e := by
  revert hc hr
  revert d e
  decide

theorem pathOf_length : ∀ (n i j : Nat), (pathOf n i j).length = n := by
  intro n
  induction n with
  | zero => intro i j; rfl
  | succ m ih => intro i j; simp [pathOf, ih]

theorem colBits_pathOf : ∀ (n i j : Nat), i < 2 ^ n →
    colBits (pathOf n i j) = i := by
  intro n
  induction n with
  | zero => intro i j hi; interval_cases i; rfl
  | succ m ih =>
    intro i j hi
    have hlt : i % 2 ^ m < 2 ^ m := Nat.mod_lt _ (Nat.pos_pow_of_pos m (by omega))
    have hdiv : i / 2 ^ m < 2 := by
      rw [Nat.div_lt_iff_lt_mul (Nat.pos_pow_of_pos m (by omega))]
      rw [pow_succ] at hi
      omega
    simp only [pathOf, colBits, cbit_qdigit, pathOf_length,
      ih (i % 2 ^ m) (j % 2 ^ m) hlt]
    rw [Nat.mod_eq_of_lt hdiv]
    calc i / 2 ^ m * 2 ^ m + i % 2 ^ m
        = 2 ^ m * (i / 2 ^ m) + i % 2 ^ m := by ring
      _ = i := Nat.div_add_mod i (2 ^ m)

theorem rowBits_pathOf : ∀ (n i j : Nat), j < 2 ^ n →
    rowBits (pathOf n i j) = j := by
  intro n
  induction n with
  | zero => intro i j hj; interval_cases j; rfl
  | succ m ih =>
    intro i j hj
    have hlt : j % 2 ^ m < 2 ^ m := Nat.mod_lt _ (Nat.pos_pow_of_pos m (by omega))
    have hdiv : j / 2 ^ m < 2 := by
      rw [Nat.div_lt_iff_lt_mul (Nat.pos_pow_of_pos m (by omega))]
      rw [pow_succ] at hj
      omega
    simp only [pathOf, rowBits, rbit_qdigit, pathOf_length,
      ih (i % 2 ^ m) (j % 2 ^ m) hlt]
    rw [Nat.mod_eq_of_lt hdiv]
    calc j / 2 ^ m * 2 ^ m + j % 2 ^ m
        = 2 ^ m * (j / 2 ^ m) + j % 2 ^ m := by ring
      _ = j := Nat.div_add_mod j (2 ^ m)

/-- Two paths of equal length with the same column and row indices are
equal. -/
theorem bits_inj : ∀ (pth pth' : List (Fin 4)), pth.length = pth'.length →
    colBits pth = colBits pth' → rowBits pth = rowBits pth' → pth = pth' := by
  intro pth
  induction pth with
  | nil =>
    intro pth' hlen _ _
    exact (List.length_eq_zero.1 hlen.symm).symm ▸ rfl
  | cons d rest ih =>
    intro pth' hlen hc hr
    rcases pth' with _ | ⟨d', rest'⟩
    · exact absurd hlen (by simp)
    · have hlen' : rest.length = rest'.length := by
        simpa using hlen
      simp only [colBits, rowBits, hlen'] at hc hr
      have hc1 : cbit d = cbit d' ∧ colBits rest = colBits rest' := by
        have b1 := colBits_lt rest
        have b2 := colBits_lt rest'
        rw [hlen'] at b1
        rcases Nat.le_one_iff_eq_zero_or_eq_one.1 (cbit_le_one d) with h | h <;>
          rcases Nat.le_one_iff_eq_zero_or_eq_one.1 (cbit_le_one d') with h' | h' <;>
          rw [h, h'] at hc ⊢ <;> omega
      have hr1 : rbit d = rbit d' ∧ rowBits rest = rowBits rest' := by
        have b1 := rowBits_lt rest
        have b2 := rowBits_lt rest'
        rw [hlen'] at b1
        rcases Nat.le_one_iff_eq_zero_or_eq_one.1 (rbit_le_one d) with h | h <;>
          rcases Nat.le_one_iff_eq_zero_or_eq_one.1 (rbit_le_one d') with h' | h' <;>
          rw [h, h'] at hr ⊢ <;> omega
      rw [qdigit_inj d d' hc1.1 hr1.1, ih rest' hlen' hc1.2 hr1.2]

/-- C3: for every depth `p` and every length-`p` path over digits
`{0,1,2,3}`, the window returned by `_get_range_by_path` (with the
effective bounds `mincol = -2^p`, `maxcol = 2^p`, `minrow = -2·2^p`,
`maxrow = 2·2^p`) lies inside the bounds; the `4^p` leaf windows
`[colstart, colstart+2) × [rowstart, rowstart+4)` are pairwise disjoint;
and they cover every grid cell of the rectangle
`[mincol, maxcol) × [minrow, maxrow)` — i.e. they partition it. -/
theorem C3_window_partition (p : Nat) :
    (∀ path : List (Fin 4), path.length = p →
      windowInBounds p (getRangeByPath p path)) ∧
    (∀ path path' : List (Fin 4), path.length = p → path'.length = p →
      path ≠ path' → ∀ c r : Int,
        ¬(inWindow (getRangeByPath p path) c r ∧
          inWindow (getRangeByPath p path') c r)) ∧
    (∀ c r : Int, -((2 : Int) ^ p) ≤ c → c < 2 ^ p →
      -(2 * (2 : Int) ^ p) ≤ r → r < 2 * 2 ^ p →
      ∃ path : List (Fin 4), path.length = p ∧
        inWindow (getRangeByPath p path) c r) := by
  have hcast : ((2 : Int) ^ p) = ((2 ^ p : Nat) : Int) := by push_cast; ring
  refine ⟨?_, ?_, ?_⟩
  · intro path hlen
    rw [getRangeByPath_formula p path hlen]
    have hcb := colBits_lt path
    have hrb := rowBits_lt path
    rw [hlen] at hcb hrb
    unfold windowInBounds
    dsimp only
    rw [hcast]
    constructor
    · omega
    constructor
    · omega
    constructor
    · omega
    · omega
  · intro path path' hlen hlen' hne c r ⟨hw, hw'⟩
    rw [getRangeByPath_formula p path hlen] at hw
    rw [getRangeByPath_formula p path' hlen'] at hw'
    unfold inWindow at hw hw'
    dsimp only at hw hw'
    rw [hcast] at hw hw'
    have hcb : colBits path = colBits path' := by omega
    have hrb : rowBits path = rowBits path' := by omega
    exact hne (bits_inj path path' (hlen.trans hlen'.symm) hcb hrb)
  · intro c r hc1 hc2 hr1 hr2
    rw [hcast] at hc1 hc2 hr1 hr2
    set i : Nat := (c + (2 ^ p : Nat)).toNat / 2 with hi
    set j : Nat := (r + 2 * (2 ^ p : Nat)).toNat / 4 with hj
    have hilt : i < 2 ^ p := by omega
    have hjlt : j < 2 ^ p := by omega
    refine ⟨pathOf p i j, pathOf_length p i j, ?_⟩
    rw [getRangeByPath_formula p (pathOf p i j) (pathOf_length p i j)]
    unfold inWindow
    dsimp only
    rw [hcast, colBits_pathOf p i j hilt, rowBits_pathOf p i j hjlt]
    omega

/-- Witness for `C3_window_partition` at depth 1: the window of path
`(2)` lies within the effective bounds `(-2, 2, -4, 4)`. -/
theorem C3_witness : windowInBounds 1 (getRangeByPath 1 [2]) :=
  (C3_window_partition 1).1 [2] rfl

/-! ### Chunk enumeration (C4) -/

theorem mem_intRangeAux :
    ∀ (n : Nat) (lo x : Int), x ∈ intRangeAux lo n ↔ lo ≤ x ∧ x < lo + n := by
  intro n
  induction n with
  | zero => intro lo x; simp [intRangeAux]
  | succ m ih =>
    intro lo x
    simp only [intRangeAux, List.mem_cons, ih]
    omega

theorem mem_intRange (lo hi x : Int) : x ∈ intRange lo hi ↔ lo ≤ x ∧ x ≤ hi := by
  rw [intRange, mem_intRangeAux]
  omega

theorem pairwise_intRangeAux :
    ∀ (n : Nat) (lo : Int), (intRangeAux lo n).Pairwise (· < ·) := by
  intro n
  induction n with
  | zero => intro lo; simp [intRangeAux]
  | succ m ih =>
    intro lo
    refine List.Pairwise.cons (fun y hy => ?_) (ih (lo + 1))
    have := (mem_intRangeAux m (lo + 1) y).1 hy
    omega

theorem chunkAt_eq_some (u : Int → Int → Int × Int)
    (r : Int × Int → Option Nat) (col row : Int) (e : ChunkRef) :
    chunkAt u r col row = some e ↔
      (row % 2 = col % 2 ∧ e.col = col ∧ e.row = row ∧
        u col row = (e.chunkx, e.chunky) ∧
        r (Int.fdiv e.chunkx 32, Int.fdiv e.chunky 32) = some e.regionfile) := by
  rcases e with ⟨ecol, erow, ecx, ecy, ereg⟩
  dsimp only
  unfold chunkAt
  by_cases hpar : row % 2 ≠ col % 2
  · rw [if_pos hpar]
    constructor
    · rintro h; cases h
    · rintro ⟨h, _⟩; exact absurd h hpar
  · push_neg at hpar
    rw [if_neg (by simpa using hpar)]
    rcases hu : u col row with ⟨cx, cy⟩
    dsimp only
    rcases hreg : r (Int.fdiv cx 32, Int.fdiv cy 32) with _ | c
    · constructor
      · rintro h; cases h
      · rintro ⟨_, _, _, hu', hr'⟩
        cases hu'
        rw [hreg] at hr'
        cases hr'
    · rw [Option.some.injEq, ChunkRef.mk.injEq]
      constructor
      · rintro ⟨rfl, rfl, rfl, rfl, rfl⟩
        exact ⟨hpar, rfl, rfl, rfl, hreg⟩
      · rintro ⟨_, rfl, rfl, hu', hr'⟩
        cases hu'
        rw [hreg] at hr'
        cases hr'
        exact ⟨rfl, rfl, rfl, rfl, rfl⟩

/-- C4: a tuple is in the list returned by `_get_chunks_in_range` iff
its row lies in `[rowstart-16, rowend]`, its column in
`[colstart, colend]`, row and column have equal parity, its chunk
coordinates are `unconvert_coords(col, row)`, and the region lookup at
`(chunkx div 32, chunky div 32)` (floor division) finds a region; in
particular no returned tuple has `col` and `row` of different parity.
(Proved for all integer window bounds, so in particular whenever
`colstart ≤ colend` and `rowstart ≤ rowend` as the claim assumes.) -/
theorem C4_chunks_in_window (u : Int → Int → Int × Int)
    (r : Int × Int → Option Nat) (colstart colend rowstart rowend : Int) :
    (∀ e : ChunkRef,
      e ∈ getChunksInRange u r colstart colend rowstart rowend ↔
        (rowstart - 16 ≤ e.row ∧ e.row ≤ rowend ∧
          colstart ≤ e.col ∧ e.col ≤ colend ∧
          e.row % 2 = e.col % 2 ∧ u e.col e.row = (e.chunkx, e.chunky) ∧
          r (Int.fdiv e.chunkx 32, Int.fdiv e.chunky 32) = some e.regionfile)) ∧
    (∀ e ∈ getChunksInRange u r colstart colend rowstart rowend,
      e.col % 2 = e.row % 2) := by
  have main : ∀ e : ChunkRef,
      e ∈ getChunksInRange u r colstart colend rowstart rowend ↔
        (rowstart - 16 ≤ e.row ∧ e.row ≤ rowend ∧
          colstart ≤ e.col ∧ e.col ≤ colend ∧
          e.row % 2 = e.col % 2 ∧ u e.col e.row = (e.chunkx, e.chunky) ∧
          r (Int.fdiv e.chunkx 32, Int.fdiv e.chunky 32) = some e.regionfile) := by
    intro e
    simp only [getChunksInRange, List.mem_flatMap, List.mem_filterMap,
      mem_intRange, chunkAt_eq_some]
    constructor
    · rintro ⟨row, ⟨h1, h2⟩, col, ⟨h3, h4⟩, hpar, hcol, hrow, hu', hr'⟩
      subst hcol; subst hrow
      exact ⟨h1, h2, h3, h4, hpar, hu', hr'⟩
    · rintro ⟨h1, h2, h3, h4, hpar, hu', hr'⟩
      exact ⟨e.row, ⟨h1, h2⟩, e.col, ⟨h3, h4⟩, hpar, rfl, rfl, hu', hr'⟩
  refine ⟨main, fun e he => ?_⟩
  exact ((main e).1 he).2.2.2.2.1.symm

/-! ### Enumeration and draw order (C10) -/

theorem pairwise_intRange (lo hi : Int) : (intRange lo hi).Pairwise (· < ·) :=
  pairwise_intRangeAux _ _

/-- C10: `_get_chunks_in_range` returns its tuples ordered by row
ascending, ties broken by column ascending (strict lexicographic
`chunkBefore`); the chunk-existence filter of `render_worldtile`
preserves that list order (it yields a sublist), so the draw loop paints
the chunks in the same order — any chunk with a greater row is drawn
after, and hence painted over, any chunk of a smaller row. -/
theorem C10_draw_order (u : Int → Int → Int × Int)
    (r : Int × Int → Option Nat) (env : WorldEnv)
    (colstart colend rowstart rowend : Int) :
    (getChunksInRange u r colstart colend rowstart rowend).Pairwise chunkBefore ∧
    (existingChunks env
        (getChunksInRange u r colstart colend rowstart rowend)).Sublist
      (getChunksInRange u r colstart colend rowstart rowend) ∧
    (drawEvents env (getChunksInRange u r colstart colend rowstart rowend)
        colstart rowstart).Pairwise
      (fun a b => chunkBefore a.1 b.1) := by
  have hpw : (getChunksInRange u r colstart colend rowstart rowend).Pairwise
      chunkBefore := by
    unfold getChunksInRange
    rw [List.pairwise_flatMap]
    constructor
    · intro row hrow
      rw [List.pairwise_filterMap]
      refine (pairwise_intRange colstart colend).imp ?_
      intro col col' hlt e he e' he'
      rw [Option.mem_def, chunkAt_eq_some] at he he'
      exact Or.inr ⟨by rw [he.2.2.1, he'.2.2.1],
        by rw [he.2.1, he'.2.1]; exact hlt⟩
    · refine (pairwise_intRange _ _).imp ?_
      intro row row' hlt e he e' he'
      rw [List.mem_filterMap] at he he'
      obtain ⟨col, _, hc⟩ := he
      obtain ⟨col', _, hc'⟩ := he'
      rw [chunkAt_eq_some] at hc hc'
      exact Or.inl (by rw [hc.2.2.1, hc'.2.2.1]; exact hlt)
  refine ⟨hpw, ?_, ?_⟩
  · exact List.filter_sublist _
  · exact List.Pairwise.map _ (fun a b h => h) (List.Pairwise.filter _ hpw)

/-! ### Empty-input deletion (C6) -/

/-- C6: if the chunk-existence filter leaves a leaf tile with no chunks,
`render_worldtile` deletes an existing tile file and writes nothing
(absent tile: nothing is done); if no child file of an inner tile
exists, `render_innertile` deletes an existing target file and writes
nothing. -/
theorem C6_empty_deletion (env : WorldEnv) (chunks : List ChunkRef)
    (t : Int) (cs : Fin 4 → StatRes)
    (h1 : existingChunks env chunks = [])
    (h2 : ∀ i, cs i = .enoent) :
    render_worldtile env chunks (.ok t) = .deleted ∧
    render_worldtile env chunks .enoent = .noop ∧
    render_innertile (.ok t) cs = .deleted ∧
    render_innertile .enoent cs = .noop := by
  have hfil : (List.finRange 4).filter (childOk cs) = [] := by
    have : ∀ i, childOk cs i = false := fun i => by
      simp [childOk, h2 i, isOkStat]
    simp [List.filter_eq_nil_iff, this]
  refine ⟨?_, ?_, ?_, ?_⟩ <;>
    simp [render_worldtile, render_innertile, h1, hfil, statMtime]

/-- Witness for `C6_empty_deletion` at a concrete input. -/
theorem C6_witness :
    render_worldtile envStale [] (.ok 0) = .deleted ∧
    render_worldtile envStale [] .enoent = .noop ∧
    render_innertile (.ok 0) (fun _ => .enoent) = .deleted ∧
    render_innertile .enoent (fun _ => .enoent) = .noop :=
  C6_empty_deletion envStale [] 0 (fun _ => .enoent) rfl (fun _ => rfl)

/-! ### Freshness scan (C2) -/

theorem lookup_cons_self (k : Nat) (v : Int) (memo : List (Nat × Int)) :
    ((k, v) :: memo).lookup k = some v := by
  rw [List.lookup_cons]
  simp

theorem lookup_cons_ne {n k : Nat} (v : Int) (memo : List (Nat × Int))
    (h : n ≠ k) : ((k, v) :: memo).lookup n = memo.lookup n := by
  rw [List.lookup_cons, show (n == k) = false from beq_eq_false_iff_ne.2 h]

/-- Full characterisation of the freshness loop when every region-file
stat succeeds (`regionStat n = ok (rmf n)`), the tile exists with mtime
`t`, and the memo dict is consistent with the filesystem: the loop
finishes, its verdict is "some chunk has both its region newer than the
tile and its timestamp newer than the tile", each region is statted at
most once and only if not memoized, timestamps are queried only for
chunks whose region mtime exceeds `t`, and the loop breaks at the first
chunk whose timestamp exceeds `t`. -/
theorem scanChunks_spec (env : WorldEnv) (t : Int) (rmf : Nat → Int)
    (hreg : ∀ n, env.regionStat n = .ok (rmf n)) :
    ∀ (cs : List ChunkRef) (memo : List (Nat × Int)),
      (∀ n m, memo.lookup n = some m → m = rmf n) →
      ∃ b st q, scanChunks env (some t) cs memo = .done b st q ∧
        (b = true ↔ ∃ c ∈ cs, t < rmf c.regionfile ∧
          t < env.chunkTimestamp c.regionfile c.chunkx c.chunky) ∧
        st.Nodup ∧ (∀ n ∈ st, memo.lookup n = none) ∧
        (∀ c ∈ q, t < rmf c.regionfile) ∧
        (∀ l₁ c l₂, q = l₁ ++ c :: l₂ →
          t < env.chunkTimestamp c.regionfile c.chunkx c.chunky → l₂ = []) := by
  intro cs
  induction cs with
  | nil =>
    intro memo hmemo
    refine ⟨false, [], [], rfl, by simp, by simp, by simp, by simp, ?_⟩
    intro l₁ c l₂ h
    exact absurd h (by simp)
  | cons c cs ih =>
    intro memo hmemo
    rcases hl : memo.lookup c.regionfile with _ | rm
    · -- region not memoized: the region file is statted (successfully)
      have hrm := hreg c.regionfile
      have hmemo' : ∀ n m,
          (((c.regionfile, rmf c.regionfile) :: memo).lookup n = some m) →
          m = rmf n := by
        intro n m hn
        by_cases he : n = c.regionfile
        · subst he
          rw [lookup_cons_self] at hn
          exact (Option.some.inj hn).symm
        · rw [lookup_cons_ne _ _ he] at hn
          exact hmemo n m hn
      by_cases hle : rmf c.regionfile ≤ t
      · have hple : pyLe (rmf c.regionfile) (some t) = true := by
          simp only [pyLe, decide_eq_true_eq]; exact hle
        obtain ⟨b, st, q, hs, hiff, hnd, hmem, hq, hstop⟩ :=
          ih ((c.regionfile, rmf c.regionfile) :: memo) hmemo'
        have hmem0 : ∀ n ∈ st, n ≠ c.regionfile ∧ memo.lookup n = none := by
          intro n hn
          have h := hmem n hn
          by_cases he : n = c.regionfile
          · subst he; rw [lookup_cons_self] at h; cases h
          · rw [lookup_cons_ne _ _ he] at h; exact ⟨he, h⟩
        refine ⟨b, c.regionfile :: st, q, ?_, ?_, ?_, ?_, hq, hstop⟩
        · simp [scanChunks, hl, hrm, hple, hs, consStat]
        · rw [hiff]
          constructor
          · rintro ⟨x, hx, hpx⟩
            exact ⟨x, List.mem_cons_of_mem _ hx, hpx⟩
          · rintro ⟨x, hx, hpx⟩
            rcases List.mem_cons.1 hx with rfl | hx'
            · exact absurd hpx.1 (by omega)
            · exact ⟨x, hx', hpx⟩
        · exact List.nodup_cons.2 ⟨fun hc => (hmem0 _ hc).1 rfl, hnd⟩
        · intro n hn
          rcases List.mem_cons.1 hn with rfl | hn'
          · exact hl
          · exact (hmem0 n hn').2
      · have hple : pyLe (rmf c.regionfile) (some t) = false := by
          simp only [pyLe, decide_eq_false_iff_not]; exact hle
        by_cases hgt : t < env.chunkTimestamp c.regionfile c.chunkx c.chunky
        · have hpgt : pyGt (env.chunkTimestamp c.regionfile c.chunkx c.chunky)
              (some t) = true := by
            simp only [pyGt, decide_eq_true_eq]; exact hgt
          refine ⟨true, [c.regionfile], [c], ?_, ?_, by simp, ?_, ?_, ?_⟩
          · simp [scanChunks, hl, hrm, hple, hpgt, consStat]
          · simp only [true_iff]
            exact ⟨c, List.mem_cons_self _ _, by omega, hgt⟩
          · intro n hn
            rcases List.mem_cons.1 hn with rfl | hn'
            · exact hl
            · simp at hn'
          · intro x hx
            rcases List.mem_cons.1 hx with rfl | hx'
            · omega
            · simp at hx'
          · intro l₁ x l₂ h _
            rcases l₁ with _ | ⟨a, l₁'⟩
            · simpa using (List.cons.inj h).2.symm
            · rw [List.cons_append] at h
              exact absurd (List.cons.inj h).2.symm (by simp)
        · have hpgt : pyGt (env.chunkTimestamp c.regionfile c.chunkx c.chunky)
              (some t) = false := by
            simp only [pyGt, decide_eq_false_iff_not]; exact hgt
          obtain ⟨b, st, q, hs, hiff, hnd, hmem, hq, hstop⟩ :=
            ih ((c.regionfile, rmf c.regionfile) :: memo) hmemo'
          have hmem0 : ∀ n ∈ st, n ≠ c.regionfile ∧ memo.lookup n = none := by
            intro n hn
            have h := hmem n hn
            by_cases he : n = c.regionfile
            · subst he; rw [lookup_cons_self] at h; cases h
            · rw [lookup_cons_ne _ _ he] at h; exact ⟨he, h⟩
          refine ⟨b, c.regionfile :: st, c :: q, ?_, ?_, ?_, ?_, ?_, ?_⟩
          · simp [scanChunks, hl, hrm, hple, hpgt, hs, consStat, consQuery]
          · rw [hiff]
            constructor
            · rintro ⟨x, hx, hpx⟩
              exact ⟨x, List.mem_cons_of_mem _ hx, hpx⟩
            · rintro ⟨x, hx, hpx⟩
              rcases List.mem_cons.1 hx with rfl | hx'
              · exact absurd hpx.2 hgt
              · exact ⟨x, hx', hpx⟩
          · exact List.nodup_cons.2 ⟨fun hc => (hmem0 _ hc).1 rfl, hnd⟩
          · intro n hn
            rcases List.mem_cons.1 hn with rfl | hn'
            · exact hl
            · exact (hmem0 n hn').2
          · intro x hx
            rcases List.mem_cons.1 hx with rfl | hx'
            · omega
            · exact hq x hx'
          · intro l₁ x l₂ h hx
            rcases l₁ with _ | ⟨a, l₁'⟩
            · obtain ⟨rfl, rfl⟩ : c = x ∧ q = l₂ :=
                ⟨(List.cons.inj h).1, (List.cons.inj h).2⟩
              exact absurd hx hgt
            · rw [List.cons_append] at h
              exact hstop l₁' x l₂ (List.cons.inj h).2 hx
    · -- region memoized: no new stat
      have hrmv : rm = rmf c.regionfile := hmemo _ _ hl
      subst hrmv
      by_cases hle : rmf c.regionfile ≤ t
      · have hple : pyLe (rmf c.regionfile) (some t) = true := by
          simp only [pyLe, decide_eq_true_eq]; exact hle
        obtain ⟨b, st, q, hs, hiff, hnd, hmem, hq, hstop⟩ := ih memo hmemo
        refine ⟨b, st, q, ?_, ?_, hnd, hmem, hq, hstop⟩
        · simp [scanChunks, hl, hple, hs]
        · rw [hiff]
          constructor
          · rintro ⟨x, hx, hpx⟩
            exact ⟨x, List.mem_cons_of_mem _ hx, hpx⟩
          · rintro ⟨x, hx, hpx⟩
            rcases List.mem_cons.1 hx with rfl | hx'
            · exact absurd hpx.1 (by omega)
            · exact ⟨x, hx', hpx⟩
      · have hple : pyLe (rmf c.regionfile) (some t) = false := by
          simp only [pyLe, decide_eq_false_iff_not]; exact hle
        by_cases hgt : t < env.chunkTimestamp c.regionfile c.chunkx c.chunky
        · have hpgt : pyGt (env.chunkTimestamp c.regionfile c.chunkx c.chunky)
              (some t) = true := by
            simp only [pyGt, decide_eq_true_eq]; exact hgt
          refine ⟨true, [], [c], ?_, ?_, by simp, by simp, ?_, ?_⟩
          · simp [scanChunks, hl, hple, hpgt]
          · simp only [true_iff]
            exact ⟨c, List.mem_cons_self _ _, by omega, hgt⟩
          · intro x hx
            rcases List.mem_cons.1 hx with rfl | hx'
            · omega
            · simp at hx'
          · intro l₁ x l₂ h _
            rcases l₁ with _ | ⟨a, l₁'⟩
            · simpa using (List.cons.inj h).2.symm
            · rw [List.cons_append] at h
              exact absurd (List.cons.inj h).2.symm (by simp)
        · have hpgt : pyGt (env.chunkTimestamp c.regionfile c.chunkx c.chunky)
              (some t) = false := by
            simp only [pyGt, decide_eq_false_iff_not]; exact hgt
          obtain ⟨b, st, q, hs, hiff, hnd, hmem, hq, hstop⟩ := ih memo hmemo
          refine ⟨b, st, c :: q, ?_, ?_, hnd, hmem, ?_, ?_⟩
          · simp [scanChunks, hl, hple, hpgt, hs, consQuery]
          · rw [hiff]
            constructor
            · rintro ⟨x, hx, hpx⟩
              exact ⟨x, List.mem_cons_of_mem _ hx, hpx⟩
            · rintro ⟨x, hx, hpx⟩
              rcases List.mem_cons.1 hx with rfl | hx'
              · exact absurd hpx.2 hgt
              · exact ⟨x, hx', hpx⟩
          · intro x hx
            rcases List.mem_cons.1 hx with rfl | hx'
            · omega
            · exact hq x hx'
          · intro l₁ x l₂ h hx
            rcases l₁ with _ | ⟨a, l₁'⟩
            · obtain ⟨rfl, rfl⟩ : c = x ∧ q = l₂ :=
                ⟨(List.cons.inj h).1, (List.cons.inj h).2⟩
              exact absurd hx hgt
            · rw [List.cons_append] at h
              exact hstop l₁' x l₂ (List.cons.inj h).2 hx

/-- C2 counterexample: the claimed "rewritten iff some contributing
chunk's timestamp exceeds the tile mtime" fails.  Tile mtime 10, one
existing contributing chunk with timestamp 100 but region-file mtime 0:
because `regionMtime <= tile_mtime` short-circuits the loop, the chunk's
timestamp is never consulted and the tile is **not** rewritten, although
the chunk's timestamp (100) exceeds the tile mtime (10). -/
theorem C2_counterexample :
    render_worldtile envStale [chunk0] (.ok 10) = .skipped ∧
    envStale.chunkTimestamp 0 0 0 > 10 ∧
    existingChunks envStale [chunk0] = [chunk0] := by
  exact ⟨by decide, by decide, by decide⟩

/-- C2 (amended): in `render_worldtile`, when the tile file exists (mtime
`t`), the contributing chunk list (after the existence filter) is
non-empty, and every region-file stat succeeds with mtime `rmf n`:
each contributing chunk's region mtime is memoized per region (the
successful region stats `st` contain no duplicate region); a chunk's
timestamp is queried (`q`) only when its region mtime exceeds the tile
mtime; the scan stops at the first queried chunk whose timestamp
exceeds the tile mtime; and the tile image is rewritten if and only if
some contributing chunk's region mtime **and** timestamp both exceed
the tile mtime (the region-mtime short-circuit makes the claim's
"some chunk's timestamp exceeds the tile mtime" insufficient). -/
theorem C2_freshness (env : WorldEnv) (chunks : List ChunkRef) (t : Int)
    (rmf : Nat → Int) (hreg : ∀ n, env.regionStat n = .ok (rmf n))
    (hne : existingChunks env chunks ≠ []) :
    ∃ b st q,
      scanChunks env (some t) (existingChunks env chunks) [] = .done b st q ∧
      (render_worldtile env chunks (.ok t) = .written ↔
        ∃ c ∈ existingChunks env chunks, t < rmf c.regionfile ∧
          t < env.chunkTimestamp c.regionfile c.chunkx c.chunky) ∧
      (render_worldtile env chunks (.ok t) = .written ∨
        render_worldtile env chunks (.ok t) = .skipped) ∧
      st.Nodup ∧
      (∀ c ∈ q, t < rmf c.regionfile) ∧
      (∀ l₁ c l₂, q = l₁ ++ c :: l₂ →
        t < env.chunkTimestamp c.regionfile c.chunkx c.chunky → l₂ = []) := by
  obtain ⟨b, st, q, hs, hiff, hnd, _, hq, hstop⟩ :=
    scanChunks_spec env t rmf hreg (existingChunks env chunks) [] (by simp)
  have hrw : render_worldtile env chunks (.ok t) =
      (if b = true then RWResult.written else RWResult.skipped) := by
    cases b <;> simp [render_worldtile, hne, statMtime, hs]
  refine ⟨b, st, q, hs, ?_, ?_, hnd, hq, hstop⟩
  · rw [hrw, ← hiff]
    cases b <;> simp
  · rw [hrw]
    cases b <;> simp

/-- Witness for `C2_freshness` at a concrete input. -/
theorem C2_witness :
    ∃ b st q,
      scanChunks envStale (some 10) (existingChunks envStale [chunk0]) [] =
        .done b st q ∧
      (render_worldtile envStale [chunk0] (.ok 10) = .written ↔
        ∃ c ∈ existingChunks envStale [chunk0], (10 : Int) < 0 ∧
          10 < envStale.chunkTimestamp c.regionfile c.chunkx c.chunky) ∧
      (render_worldtile envStale [chunk0] (.ok 10) = .written ∨
        render_worldtile envStale [chunk0] (.ok 10) = .skipped) ∧
      st.Nodup ∧
      (∀ c ∈ q, (10 : Int) < 0) ∧
      (∀ l₁ c l₂, q = l₁ ++ c :: l₂ →
        10 < envStale.chunkTimestamp c.regionfile c.chunkx c.chunky →
        l₂ = []) :=
  C2_freshness envStale [chunk0] 10 (fun _ => 0) (fun _ => rfl) (by decide)

/-! ### Stat error handling (C8) -/

/-- C8 counterexample: a non-ENOENT `OSError` does not always propagate.
A child-file stat of an inner tile failing with a non-ENOENT error is
silently treated as "child absent" (`except OSError: pass`, lines
508-510) — here all four children error out and the existing target is
even deleted; and a region-file mtime error in `render_worldtile` is
swallowed by `except OSError: pass` (lines 658-660) and the tile is
rendered instead of the error propagating. -/
theorem C8_counterexample :
    render_innertile (.ok 10) (fun _ => .err) = .deleted ∧
    render_worldtile envRegionErr [chunk0] (.ok 10) = .written := by
  constructor
  · decide
  · decide

/-- C8 (amended): a failing stat on the **tile file** of
`render_worldtile` or `render_innertile` treats ENOENT as "absent" and
propagates any other error; but a failing stat on a **child file** in
`render_innertile` is treated as the child being absent whatever the
error (behaviour is identical to ENOENT), and a failing
`os.path.getmtime` on a **region file** in `render_worldtile` aborts
the freshness check and causes the tile to be rendered rather than
propagating. -/
theorem C8_stat_errors (env : WorldEnv) (chunks : List ChunkRef)
    (cs : Fin 4 → StatRes) (ts : StatRes) (hts : ts ≠ .err) :
    render_worldtile env chunks .err = .error ∧
    render_innertile .err cs = .error ∧
    render_innertile ts cs = render_innertile ts (fun i => demoteErr (cs i)) ∧
    (existingChunks env chunks ≠ [] →
      ∀ st q,
        scanChunks env (statMtime ts) (existingChunks env chunks) [] =
          .aborted st q →
        render_worldtile env chunks ts = .written) := by
  have hok : childOk (fun i => demoteErr (cs i)) = childOk cs :=
    funext fun i => by simp only [childOk]; cases cs i <;> rfl
  have hnew : ∀ tmt, childNewer (fun i => demoteErr (cs i)) tmt = childNewer cs tmt :=
    fun tmt => funext fun i => by simp only [childNewer]; cases cs i <;> rfl
  refine ⟨rfl, rfl, ?_, ?_⟩
  · cases ts with
    | err => exact absurd rfl hts
    | ok m => simp only [render_innertile, hok, hnew]
    | enoent => simp only [render_innertile, hok, hnew]
  · intro hne st q hscan
    cases ts with
    | err => exact absurd rfl hts
    | ok m => simp [render_worldtile, if_neg hne, statMtime] at hscan ⊢; rw [hscan]
    | enoent => simp [render_worldtile, if_neg hne, statMtime] at hscan ⊢; rw [hscan]

/-- Witness for `C8_stat_errors` at a concrete input. -/
theorem C8_witness : render_innertile .err (fun _ => .enoent) = .error :=
  (C8_stat_errors envStale [] (fun _ => .enoent) (.ok 0) (by decide)).2.1

/-! ### Tree rebalancing (C5) -/

/-- C5: `_increase_depth` turns each top-level quadrant `d` into a fresh
directory whose only entries are the former `d.<ext>` stored as
`(3-d).<ext>` and the former `d/` stored as `(3-d)/`, emptying the
top-level file slot; and `_increase_depth` followed by
`_decrease_depth` restores every directory two levels down (`d/e/`),
i.e. the whole topology below the top two levels — only the
top-two-level files (which the pipeline regenerates) may differ. -/
theorem C5_grow_shrink (t : TileTop) :
    (∀ d : Fin 4,
      (increase_depth t).fileAt d = none ∧
      ∃ q, (increase_depth t).dirAt d = some q ∧
        q.fileAt (flipDigit d) = t.fileAt d ∧
        q.dirAt (flipDigit d) = t.dirAt d ∧
        ∀ e : Fin 4, e ≠ flipDigit d → q.fileAt e = none ∧ q.dirAt e = none) ∧
    (∀ d e : Fin 4,
      deepDir (decrease_depth (increase_depth t)) d e = deepDir t d e) := by
  constructor
  · intro d
    fin_cases d <;>
      exact ⟨rfl, _, rfl, rfl, rfl, by
        intro e he
        fin_cases e <;> first
          | exact absurd rfl he
          | exact ⟨rfl, rfl⟩⟩
  · intro d e
    fin_cases d
    · cases h : t.d0 <;>
        simp [deepDir, decrease_depth, increase_depth, TileTop.dirAt,
          decreaseQuadrant, QTree.dirAt, h] <;>
        fin_cases e <;> simp [QTree.dirAt]
    · cases h : t.d1 <;>
        simp [deepDir, decrease_depth, increase_depth, TileTop.dirAt,
          decreaseQuadrant, QTree.dirAt, h] <;>
        fin_cases e <;> simp [QTree.dirAt]
    · cases h : t.d2 <;>
        simp [deepDir, decrease_depth, increase_depth, TileTop.dirAt,
          decreaseQuadrant, QTree.dirAt, h] <;>
        fin_cases e <;> simp [QTree.dirAt]
    · cases h : t.d3 <;>
        simp [deepDir, decrease_depth, increase_depth, TileTop.dirAt,
          decreaseQuadrant, QTree.dirAt, h] <;>
        fin_cases e <;> simp [QTree.dirAt]

/-! ### Bounded in-flight FIFO (C9) -/

theorem drainTo_length (lowq : Nat) (q : List Nat) :
    (drainTo lowq q).length = min lowq q.length := by
  simp [drainTo]; omega

theorem phasePairs_inv (maxq lowq : Nat) (hlq : lowq ≤ maxq) :
    ∀ ts q, q.length ≤ maxq →
      ∀ pr ∈ phasePairs maxq lowq q ts,
        pr.1.length ≤ maxq + 1 ∧ pr.2.length ≤ maxq ∧
        (maxq < pr.1.length → pr.2 = drainTo lowq pr.1 ∧ pr.2.length ≤ lowq) ∧
        (pr.1.length ≤ maxq → pr.2 = pr.1) := by
  intro ts
  induction ts with
  | nil => intro q hq pr hpr; simp [phasePairs] at hpr
  | cons t ts ih =>
    intro q hq pr hpr
    simp only [phasePairs, List.mem_cons] at hpr
    have hlen1 : (q ++ [t]).length = q.length + 1 := by simp
    by_cases hbig : maxq < (q ++ [t]).length
    · rw [if_pos hbig] at hpr
      have hd : (drainTo lowq (q ++ [t])).length ≤ lowq := by
        rw [drainTo_length]; omega
      rcases hpr with rfl | hpr
      · dsimp only
        exact ⟨by omega, by omega, fun _ => ⟨rfl, hd⟩,
          fun hsmall => absurd hbig (by omega)⟩
      · exact ih (drainTo lowq (q ++ [t])) (by omega) pr hpr
    · rw [if_neg hbig] at hpr
      rcases hpr with rfl | hpr
      · dsimp only
        exact ⟨by omega, by omega, fun hc => absurd hc hbig, fun _ => rfl⟩
      · exact ih (q ++ [t]) (by omega) pr hpr

/-- C9: during a dispatch phase of `go` with `batch_size = 50`, starting
from an empty deque, the result FIFO never holds more than
`10000/batch_size + 1 = 201` entries (the after-append states), every
after-drain state holds at most `10000/batch_size = 200`; whenever the
length exceeds `10000/batch_size` the deque is drained from the front
(a `drop`) down to at most `500/batch_size = 10`; and the end-of-phase
`while len(results) > 0` loop leaves the deque empty before the next
phase or zoom level starts. -/
theorem C9_bounded_fifo (tasks : List Nat) :
    (∀ pr ∈ phasePairs queueHigh queueLow [] tasks,
      pr.1.length ≤ 10000 / batch_size + 1 ∧
      pr.2.length ≤ 10000 / batch_size ∧
      (10000 / batch_size < pr.1.length →
        pr.2 = pr.1.drop (pr.1.length - 500 / batch_size) ∧
        pr.2.length ≤ 500 / batch_size) ∧
      (pr.1.length ≤ 10000 / batch_size → pr.2 = pr.1)) ∧
    drainTo 0 (phaseEnd queueHigh queueLow [] tasks) = [] := by
  constructor
  · intro pr hpr
    have := phasePairs_inv queueHigh queueLow (by decide) tasks []
      (by simp) pr hpr
    exact this
  · simp [drainTo, List.drop_length]

end Overviewer
